import Mathlib

/-!
Verification of the `weldx` coordinate-transformation core.

This file gives a shallow embedding, in exact rational arithmetic, of
`weldx/transformations.py` (the `LocalCoordinateSystem` class and the
`CoordinateSystemManager` graph), of the helpers it uses from
`weldx/utility.py`, and of the import loop of
`weldx/asdf/tags/weldx/core/transformations/coordinate_system_hierarchy.py`.
Python exceptions are modelled by an `Except` monad over an explicit error
type; the floating-point matrices of the code are modelled by `Matrix
(Fin 3) (Fin 3) ℚ`, so every statement below is about exact arithmetic.
-/

namespace Weldx

open Matrix

/-- The Python exception values that the embedded code can raise.
`exception` is the builtin generic `Exception` with its message,
`valueError` a builtin `ValueError`, `keyError` the lookup failure of
`graph.edges[a, b]`, `indexError` a list index out of range, and
`networkXNoPath` the error raised by `networkx.shortest_path` when no
path exists. -/
inductive PyError where
  | valueError (msg : String)
  | keyError
  | indexError
  | exception (msg : String)
  | networkXNoPath
deriving DecidableEq, Repr

/-- The 3×3 rational matrix type, standing for the `(c, v)`-indexed float arrays of
the code. -/
abbrev Matrix3 := Matrix (Fin 3) (Fin 3) ℚ

/-- The 3-component rational vector type, standing for the `c`-indexed float arrays. -/
abbrev Vec3 := Fin 3 → ℚ

instance : DecidableEq Matrix3 :=
  fun M N => decidable_of_iff (∀ i j, M i j = N i j) Matrix.ext_iff

/-- Squared Euclidean norm of row `i` of `M`: the square of
`np.linalg.norm(vec, axis=-1)[i]` computed by `normalize` in
`weldx/transformations.py` (the core dims of the basis are `["c", "v"]`
and the norm is taken over the last axis, so it is a norm of each row). -/
def rowNormSq (M : Matrix3) (i : Fin 3) : ℚ := ∑ j, (M i j) ^ 2

/-- Exact square root inside `ℚ`: returns the nonnegative rational root
when one exists and `0` otherwise.  The Python code computes the real
square root of the row norms; `ratSqrt` agrees with it exactly whenever
the root is rational, and every theorem below only evaluates the stored
basis of a constructed system on matrices whose row norms are exactly `1`,
where the two agree. -/
def ratSqrt (q : ℚ) : ℚ :=
  if 0 ≤ q ∧ ((Nat.sqrt q.num.natAbs : ℤ) ^ 2 = q.num ∧ (Nat.sqrt q.den) ^ 2 = q.den)
  then (Nat.sqrt q.num.natAbs : ℚ) / (Nat.sqrt q.den : ℚ) else 0

/-- Model of `normalize` from `weldx/transformations.py`, applied by
`LocalCoordinateSystem.__init__` to the whole basis matrix through
`xr.apply_ufunc`: it raises `ValueError("Vector length is 0.")` when some
row norm is zero (`if not np.all(norm)`), and otherwise divides each row
by its Euclidean norm.  A row norm is zero iff its square `rowNormSq` is
zero, which keeps the test exact over `ℚ`. -/
def normalize (M : Matrix3) : Except PyError Matrix3 :=
  if ∀ i, rowNormSq M i ≠ 0 then
    .ok (fun i j => M i j / ratSqrt (rowNormSq M i))
  else .error (.valueError "Vector length is 0.")

/-- The orthogonality test of `LocalCoordinateSystem.__init__`: the code
calls `ut.xr_is_orthogonal_matrix(N, dims=["c", "v"])` on the row-normalized
basis `N`, i.e. `np.allclose(N @ N.T, eye)` with the numpy defaults
`rtol = 1e-5`, `atol = 1e-8`.  Writing `G = M * Mᵀ` and `nᵢ` for the norm of
row `i` of the raw basis `M`, we have `(N @ N.T) i j = G i j / (nᵢ * nⱼ)`; in
exact arithmetic the diagonal entries are exactly `1`, so `allclose` holds
iff every off-diagonal entry satisfies `|G i j| / (nᵢ * nⱼ) ≤ 1e-8`, i.e.
`(G i j)^2 * 10^16 ≤ rowNormSq M i * rowNormSq M j`.  This phrasing avoids
the (irrational) square roots `nᵢ` altogether. -/
def normalized_basis_is_orthogonal (M : Matrix3) : Prop :=
  ∀ i j, i ≠ j → ((M * Mᵀ) i j) ^ 2 * 10 ^ 16 ≤ rowNormSq M i * rowNormSq M j

instance (M : Matrix3) : Decidable (normalized_basis_is_orthogonal M) := by
  unfold normalized_basis_is_orthogonal; infer_instance

/-- The state of a `LocalCoordinateSystem` instance: the stored (normalized)
`basis` data array and the `origin` data array of its `xarray.Dataset`. -/
structure LocalCoordinateSystem where
  basis : Matrix3
  origin : Vec3
deriving DecidableEq, Repr

/-- An exactly orthonormal matrix (`M * Mᵀ = 1`).  This is the datatype
invariant the spec states for the orientation of every
`LocalCoordinateSystem`, read in exact arithmetic. -/
def IsOrthonormal (M : Matrix3) : Prop := M * Mᵀ = 1

instance (M : Matrix3) : Decidable (IsOrthonormal M) := by
  unfold IsOrthonormal; infer_instance

/-- Model of `LocalCoordinateSystem.__init__`: convert the inputs to data arrays,
normalize the rows of the basis (which raises `ValueError` on a zero row),
test the normalized basis for orthogonality, and on failure raise the
generic `Exception("Basis vectors must be orthogonal")`; otherwise store
the normalized basis and the origin. -/
def construct (basis : Matrix3) (origin : Vec3) :
    Except PyError LocalCoordinateSystem :=
  match normalize basis with
  | .error e => .error e
  | .ok nb =>
    if normalized_basis_is_orthogonal basis then
      .ok ⟨nb, origin⟩
    else
      .error (.exception "Basis vectors must be orthogonal")

/-- The raw value computed by `LocalCoordinateSystem.__add__` before it is
passed to the constructor: `R_n = R_r * R_l`, `T_n = R_r * T_l + T_r`
(`self` is the left operand `A`, `rhs_cs` the right operand `B`). -/
def compose (A B : LocalCoordinateSystem) : LocalCoordinateSystem :=
  ⟨B.basis * A.basis, B.basis.mulVec A.origin + B.origin⟩

/-- Model of `LocalCoordinateSystem.__add__`: build the composed basis and origin
with `ut.xr_matmul` / `ut.xr_matvecmul` and return
`LocalCoordinateSystem(basis, origin)` (which re-normalizes and re-checks). -/
def LocalCoordinateSystem.add (A B : LocalCoordinateSystem) :
    Except PyError LocalCoordinateSystem :=
  construct (B.basis * A.basis) (B.basis.mulVec A.origin + B.origin)

/-- Model of `LocalCoordinateSystem.__sub__`: `R_n = R_rᵀ * R_l`,
`T_n = R_rᵀ * (T_l - T_r)` (the code passes `rhs_cs.basis` with
`dims_a=["v", "c"]`, i.e. transposed), then routes through the constructor. -/
def LocalCoordinateSystem.sub (A B : LocalCoordinateSystem) :
    Except PyError LocalCoordinateSystem :=
  construct (B.basisᵀ * A.basis) (B.basisᵀ.mulVec (A.origin - B.origin))

/-- The raw value computed by `LocalCoordinateSystem.invert` before the
constructor: `basis_new = basisᵀ`, `origin_new = basisᵀ * (-origin)`
(the code transposes the basis first and then applies `mat_vec_mul` to the
already transposed basis and `-origin`). -/
def invertVal (L : LocalCoordinateSystem) : LocalCoordinateSystem :=
  ⟨L.basisᵀ, L.basisᵀ.mulVec (-L.origin)⟩

/-- Model of `LocalCoordinateSystem.invert`: transpose the basis data, rotate the
negated origin by it, and return `LocalCoordinateSystem(basis, origin)`. -/
def LocalCoordinateSystem.invert (L : LocalCoordinateSystem) :
    Except PyError LocalCoordinateSystem :=
  construct L.basisᵀ (L.basisᵀ.mulVec (-L.origin))

/-- A 90° rotation about the z axis, used as a concrete orthonormal basis
in witnesses. -/
def rotZ90 : Matrix3 := !![0, -1, 0; 1, 0, 0; 0, 0, 1]

/-- Classifier for results of `construct`: did it raise a `ValueError`? -/
def raisesValueError : Except PyError LocalCoordinateSystem → Bool
  | .error (.valueError _) => true
  | _ => false

/-- Classifier for results of `construct`: did it produce an instance? -/
def producesInstance : Except PyError LocalCoordinateSystem → Bool
  | .ok _ => true
  | _ => false

lemma rowNormSq_eq_diag (M : Matrix3) (i : Fin 3) :
    rowNormSq M i = (M * Mᵀ) i i := by
  simp [rowNormSq, Matrix.mul_apply, sq]

lemma ratSqrt_one : ratSqrt 1 = 1 := by norm_num [ratSqrt]

lemma isOrthonormal_one : IsOrthonormal (1 : Matrix3) := by
  unfold IsOrthonormal
  rw [Matrix.transpose_one, one_mul]

lemma rotZ90_transpose : rotZ90ᵀ = !![0, 1, 0; -1, 0, 0; 0, 0, 1] := by
  rw [Matrix.eta_fin_three (rotZ90ᵀ)]
  norm_num [rotZ90, Matrix.vecHead, Matrix.vecTail]

lemma isOrthonormal_rotZ90 : IsOrthonormal rotZ90 := by
  unfold IsOrthonormal
  rw [rotZ90_transpose, show rotZ90 = !![0, -1, 0; 1, 0, 0; 0, 0, 1] from rfl,
    Matrix.mul_fin_three, Matrix.one_fin_three]
  norm_num

lemma rowNormSq_of_orthonormal {M : Matrix3} (h : IsOrthonormal M) (i : Fin 3) :
    rowNormSq M i = 1 := by
  rw [rowNormSq_eq_diag, h, Matrix.one_apply_eq]

lemma normalize_of_orthonormal {M : Matrix3} (h : IsOrthonormal M) :
    normalize M = .ok M := by
  unfold normalize
  rw [if_pos]
  · refine congrArg Except.ok ?_
    funext i j
    rw [rowNormSq_of_orthonormal h, ratSqrt_one, div_one]
  · intro i
    rw [rowNormSq_of_orthonormal h]
    norm_num

lemma ortho_test_of_orthonormal {M : Matrix3} (h : IsOrthonormal M) :
    normalized_basis_is_orthogonal M := by
  intro i j hij
  rw [h, Matrix.one_apply_ne hij, rowNormSq_of_orthonormal h,
    rowNormSq_of_orthonormal h]
  norm_num

lemma construct_of_orthonormal {M : Matrix3} (h : IsOrthonormal M) (o : Vec3) :
    construct M o = .ok ⟨M, o⟩ := by
  unfold construct
  rw [normalize_of_orthonormal h]
  exact if_pos (ortho_test_of_orthonormal h)

lemma IsOrthonormal.mul {A B : Matrix3} (hA : IsOrthonormal A)
    (hB : IsOrthonormal B) : IsOrthonormal (A * B) := by
  unfold IsOrthonormal at *
  rw [Matrix.transpose_mul, mul_assoc, ← mul_assoc B Bᵀ, hB, one_mul, hA]

lemma IsOrthonormal.transpose {M : Matrix3} (h : IsOrthonormal M) :
    IsOrthonormal Mᵀ := by
  unfold IsOrthonormal at *
  rw [Matrix.transpose_transpose]
  exact Matrix.mul_eq_one_comm.mp h

lemma mulVec_transpose_cancel {M : Matrix3} (h : IsOrthonormal M) (v : Vec3) :
    Mᵀ.mulVec (M.mulVec v) = v := by
  rw [Matrix.mulVec_mulVec, Matrix.mul_eq_one_comm.mp h, Matrix.one_mulVec]

lemma lcs_add_ok {A B : LocalCoordinateSystem} (hA : IsOrthonormal A.basis)
    (hB : IsOrthonormal B.basis) : A.add B = .ok (compose A B) :=
  construct_of_orthonormal (hB.mul hA) _

lemma lcs_invert_ok {L : LocalCoordinateSystem} (h : IsOrthonormal L.basis) :
    L.invert = .ok (invertVal L) :=
  construct_of_orthonormal h.transpose _

lemma compose_orthonormal {A B : LocalCoordinateSystem}
    (hA : IsOrthonormal A.basis) (hB : IsOrthonormal B.basis) :
    IsOrthonormal (compose A B).basis :=
  hB.mul hA

lemma invertVal_orthonormal {L : LocalCoordinateSystem}
    (h : IsOrthonormal L.basis) : IsOrthonormal (invertVal L).basis :=
  h.transpose

lemma invertVal_invertVal {L : LocalCoordinateSystem}
    (h : IsOrthonormal L.basis) : invertVal (invertVal L) = L := by
  unfold invertVal
  dsimp only
  rw [Matrix.transpose_transpose]
  refine congrArg (LocalCoordinateSystem.mk L.basis) ?_
  have h' : L.basis * L.basisᵀ = 1 := h
  simp [Matrix.mulVec_neg, Matrix.mulVec_mulVec, h', Matrix.one_mulVec]

/-- C2: for all `LocalCoordinateSystem` values `A` and `B` (with the
orthonormal-orientation datatype invariant of the spec, read exactly),
`A + B` returns a new system with orientation `orientation_B · orientation_A`
and origin `orientation_B · origin_A + origin_B`: the value the constructor
re-normalizes and stores is exactly the composed one. -/
theorem add_spec (A B : LocalCoordinateSystem)
    (hA : IsOrthonormal A.basis) (hB : IsOrthonormal B.basis) :
    A.add B = .ok ⟨B.basis * A.basis, B.basis.mulVec A.origin + B.origin⟩ := by
  unfold LocalCoordinateSystem.add
  exact construct_of_orthonormal (hB.mul hA) _

/-- Witness for C2 at a concrete pair of systems. -/
theorem add_spec_witness :
    LocalCoordinateSystem.add ⟨1, ![1, 2, 3]⟩ ⟨rotZ90, ![1, 0, 0]⟩ =
      .ok ⟨rotZ90 * 1, rotZ90.mulVec ![1, 2, 3] + ![1, 0, 0]⟩ :=
  add_spec ⟨1, ![1, 2, 3]⟩ ⟨rotZ90, ![1, 0, 0]⟩ isOrthonormal_one
    isOrthonormal_rotZ90

/-- C6: for orthonormal `A` and `B`, the round trip `(A + B) - B` gives back
`A` exactly, in both orientation and origin. -/
theorem add_sub_roundtrip (A B : LocalCoordinateSystem)
    (hA : IsOrthonormal A.basis) (hB : IsOrthonormal B.basis) :
    Except.bind (A.add B) (fun C => C.sub B) = .ok A := by
  rw [lcs_add_ok hA hB]
  show LocalCoordinateSystem.sub
      ⟨B.basis * A.basis, B.basis.mulVec A.origin + B.origin⟩ B = .ok A
  unfold LocalCoordinateSystem.sub
  have h1 : B.basisᵀ * (B.basis * A.basis) = A.basis := by
    rw [← mul_assoc, Matrix.mul_eq_one_comm.mp hB, one_mul]
  have h2 : B.basisᵀ.mulVec (B.basis.mulVec A.origin + B.origin - B.origin) =
      A.origin := by
    rw [add_sub_cancel_right, mulVec_transpose_cancel hB]
  rw [h1, h2]
  exact construct_of_orthonormal hA A.origin

/-- Witness for C6 at a concrete pair of systems. -/
theorem add_sub_roundtrip_witness :
    Except.bind (LocalCoordinateSystem.add ⟨rotZ90, ![5, 0, 2]⟩ ⟨1, ![1, 1, 1]⟩)
      (fun C => C.sub ⟨1, ![1, 1, 1]⟩) = .ok ⟨rotZ90, ![5, 0, 2]⟩ :=
  add_sub_roundtrip ⟨rotZ90, ![5, 0, 2]⟩ ⟨1, ![1, 1, 1]⟩ isOrthonormal_rotZ90
    isOrthonormal_one

/-- The deliberately non-orthogonal basis from the claim. -/
def badBasis : Matrix3 := !![1, 2, 3; 4, 5, 6; 7, 8, 9]

lemma construct_ortho_fail {M : Matrix3} (o : Vec3)
    (hnz : ∀ i, rowNormSq M i ≠ 0)
    (hortho : ¬ normalized_basis_is_orthogonal M) :
    construct M o = .error (.exception "Basis vectors must be orthogonal") := by
  unfold construct normalize
  rw [if_pos hnz]
  exact if_neg hortho

lemma badBasis_rows_nonzero : ∀ i, rowNormSq badBasis i ≠ 0 := by
  intro i
  fin_cases i <;> norm_num [rowNormSq, badBasis, Fin.sum_univ_three]

lemma badBasis_not_ortho : ¬ normalized_basis_is_orthogonal badBasis := by
  intro h
  have h01 := h 0 1 (by decide)
  norm_num [Matrix.mul_apply, Matrix.transpose_apply, Fin.sum_univ_three,
    badBasis, rowNormSq, Matrix.vecHead, Matrix.vecTail] at h01

/-- C7 counterexample: constructing from `[[1,2,3],[4,5,6],[7,8,9]]` does
fail, but with the generic builtin `Exception("Basis vectors must be
orthogonal")`, not with a `ValueError`/`ValidationError` as the claim
states (and this version has no flag that disables the checks). -/
theorem construct_badBasis_counterexample :
    construct badBasis 0 = .error (.exception "Basis vectors must be orthogonal")
      ∧ raisesValueError (construct badBasis 0) = false
      ∧ producesInstance (construct badBasis 0) = false := by
  have he := construct_ortho_fail (M := badBasis) 0 badBasis_rows_nonzero
    badBasis_not_ortho
  refine ⟨he, ?_, ?_⟩ <;> rw [he] <;> rfl

/-- C7 amended: for every basis whose rows are nonzero but whose normalized
matrix fails the `M·Mᵀ ≈ I` tolerance test, construction fails with the
generic `Exception("Basis vectors must be orthogonal")` and no instance is
produced (there is no way to disable the checks in this version). -/
theorem construct_nonorthogonal_spec (M : Matrix3) (o : Vec3)
    (hnz : ∀ i, rowNormSq M i ≠ 0)
    (hortho : ¬ normalized_basis_is_orthogonal M) :
    construct M o = .error (.exception "Basis vectors must be orthogonal") :=
  construct_ortho_fail o hnz hortho

/-- Witness for the amended C7 at the concrete non-orthogonal matrix. -/
theorem construct_nonorthogonal_spec_witness :
    construct badBasis 0 =
      .error (.exception "Basis vectors must be orthogonal") :=
  construct_nonorthogonal_spec badBasis 0 badBasis_rows_nonzero
    badBasis_not_ortho

/-- The pool of numpy array buffers held by `LocalCoordinateSystem`
instances.  A buffer is identified by its index in the pool; allocation
appends.  In the Python code the operands of `__add__`, `__sub__` and
`invert` are never written into: `np.matmul`/`xr.apply_ufunc` allocate
fresh output arrays, `invert` works on a `copy(deep=False)` whose
variables are fresh containers (so `da.data = ...` rebinds only the
copy's pointer), and `da.transpose(...)` creates a view without writing.
The model therefore gives each operation read access to existing buffers
and lets it allocate new ones, mirroring which arrays back the returned
instance. -/
structure Store where
  mats : List Matrix3
  vecs : List Vec3

/-- A `LocalCoordinateSystem` instance seen as pointers into the buffer
pool: the buffer of its `basis` data array and of its `origin` data array. -/
structure LCSRef where
  basisBuf : ℕ
  originBuf : ℕ

/-- Read an instance's current basis/origin values out of the pool. -/
def lcsAt (s : Store) (r : LCSRef) : LocalCoordinateSystem :=
  ⟨s.mats.getD r.basisBuf 0, s.vecs.getD r.originBuf 0⟩

/-- Allocate the two fresh buffers backing a newly constructed instance
(the normalized basis produced by `xr.apply_ufunc(normalize, ...)` and the
origin array produced by the arithmetic) and return the new instance's
pointers. -/
def storeResult (s : Store) (v : LocalCoordinateSystem) : Store × LCSRef :=
  (⟨s.mats ++ [v.basis], s.vecs ++ [v.origin]⟩, ⟨s.mats.length, s.vecs.length⟩)

/-- Model of `__add__` at the buffer level: read both operands, compute the composed
system (possibly raising), and back the result by fresh buffers. -/
def addS (s : Store) (l r : LCSRef) : Except PyError (Store × LCSRef) :=
  ((lcsAt s l).add (lcsAt s r)).map (storeResult s)

/-- Model of `__sub__` at the buffer level. -/
def subS (s : Store) (l r : LCSRef) : Except PyError (Store × LCSRef) :=
  ((lcsAt s l).sub (lcsAt s r)).map (storeResult s)

/-- Model of `invert` at the buffer level. -/
def invertS (s : Store) (l : LCSRef) : Except PyError (Store × LCSRef) :=
  ((lcsAt s l).invert).map (storeResult s)

lemma getD_append_left {α} (l l' : List α) (d : α) (i : ℕ) (h : i < l.length) :
    (l ++ l').getD i d = l.getD i d := by
  simp [List.getD_eq_getElem?_getD, List.getElem?_append, h]

lemma storeResult_frame (s : Store) (v : LocalCoordinateSystem)
    {s' : Store} {res : LCSRef} (h : storeResult s v = (s', res)) :
    (∀ i, i < s.mats.length → s'.mats.getD i 0 = s.mats.getD i 0)
    ∧ (∀ i, i < s.vecs.length → s'.vecs.getD i 0 = s.vecs.getD i 0)
    ∧ res.basisBuf = s.mats.length ∧ res.originBuf = s.vecs.length := by
  unfold storeResult at h
  obtain ⟨hs, hr⟩ := Prod.mk.injEq .. ▸ h
  subst hs hr
  exact ⟨fun i hi => getD_append_left _ _ _ _ hi,
    fun i hi => getD_append_left _ _ _ _ hi, rfl, rfl⟩

/-- C9: the operations `+`, `-` and `invert()` never mutate their operands.
Whenever one of them succeeds, every buffer that existed before the call
still holds exactly the same data afterwards (so in particular the basis
and origin arrays of both operands are element-wise unchanged), and the
returned instance is backed by freshly allocated buffers that did not
exist before the call. -/
theorem lcs_ops_no_mutation (s : Store) (l r : LCSRef) (s' : Store)
    (res : LCSRef)
    (h : addS s l r = .ok (s', res) ∨ subS s l r = .ok (s', res) ∨
      invertS s l = .ok (s', res)) :
    (∀ i, i < s.mats.length → s'.mats.getD i 0 = s.mats.getD i 0)
    ∧ (∀ i, i < s.vecs.length → s'.vecs.getD i 0 = s.vecs.getD i 0)
    ∧ res.basisBuf = s.mats.length ∧ res.originBuf = s.vecs.length
    ∧ (l.basisBuf < s.mats.length → l.originBuf < s.vecs.length →
        lcsAt s' l = lcsAt s l)
    ∧ (r.basisBuf < s.mats.length → r.originBuf < s.vecs.length →
        lcsAt s' r = lcsAt s r) := by
  have main :
      (∀ i, i < s.mats.length → s'.mats.getD i 0 = s.mats.getD i 0)
      ∧ (∀ i, i < s.vecs.length → s'.vecs.getD i 0 = s.vecs.getD i 0)
      ∧ res.basisBuf = s.mats.length ∧ res.originBuf = s.vecs.length := by
    rcases h with h | h | h
    · unfold addS at h
      cases hop : (lcsAt s l).add (lcsAt s r) with
      | error e => rw [hop] at h; exact Except.noConfusion h
      | ok v =>
        rw [hop] at h
        exact storeResult_frame s v (Except.ok.inj h)
    · unfold subS at h
      cases hop : (lcsAt s l).sub (lcsAt s r) with
      | error e => rw [hop] at h; exact Except.noConfusion h
      | ok v =>
        rw [hop] at h
        exact storeResult_frame s v (Except.ok.inj h)
    · unfold invertS at h
      cases hop : (lcsAt s l).invert with
      | error e => rw [hop] at h; exact Except.noConfusion h
      | ok v =>
        rw [hop] at h
        exact storeResult_frame s v (Except.ok.inj h)
  obtain ⟨hm, hv, hb, ho⟩ := main
  refine ⟨hm, hv, hb, ho, fun h1 h2 => ?_, fun h1 h2 => ?_⟩ <;>
    unfold lcsAt <;> rw [hm _ ‹_›, hv _ ‹_›]

/-- Concrete two-instance store used by the C9 witness. -/
def storeW : Store := ⟨[1, rotZ90], [![1, 2, 3], ![1, 0, 0]]⟩

/-- The store after `addS` on `storeW`: both old buffers intact, two fresh
ones appended. -/
def storeW2 : Store :=
  ⟨[1, rotZ90, rotZ90 * 1], [![1, 2, 3], ![1, 0, 0],
    rotZ90.mulVec ![1, 2, 3] + ![1, 0, 0]]⟩

lemma addS_storeW :
    addS storeW ⟨0, 0⟩ ⟨1, 1⟩ = .ok (storeW2, ⟨2, 2⟩) := by
  unfold addS
  rw [show lcsAt storeW ⟨0, 0⟩ = ⟨1, ![1, 2, 3]⟩ from rfl,
    show lcsAt storeW ⟨1, 1⟩ = ⟨rotZ90, ![1, 0, 0]⟩ from rfl]
  rw [show LocalCoordinateSystem.add ⟨1, ![1, 2, 3]⟩ ⟨rotZ90, ![1, 0, 0]⟩ =
      construct (rotZ90 * 1) (rotZ90.mulVec ![1, 2, 3] + ![1, 0, 0]) from rfl,
    construct_of_orthonormal (isOrthonormal_rotZ90.mul isOrthonormal_one)]
  rfl

/-- Witness for C9 at a concrete `addS` call. -/
theorem lcs_ops_no_mutation_witness :
    (∀ i, i < storeW.mats.length → storeW2.mats.getD i 0 = storeW.mats.getD i 0)
    ∧ (∀ i, i < storeW.vecs.length →
        storeW2.vecs.getD i 0 = storeW.vecs.getD i 0)
    ∧ (LCSRef.mk 2 2).basisBuf = storeW.mats.length
    ∧ (LCSRef.mk 2 2).originBuf = storeW.vecs.length
    ∧ ((LCSRef.mk 0 0).basisBuf < storeW.mats.length →
        (LCSRef.mk 0 0).originBuf < storeW.vecs.length →
        lcsAt storeW2 ⟨0, 0⟩ = lcsAt storeW ⟨0, 0⟩)
    ∧ ((LCSRef.mk 1 1).basisBuf < storeW.mats.length →
        (LCSRef.mk 1 1).originBuf < storeW.vecs.length →
        lcsAt storeW2 ⟨1, 1⟩ = lcsAt storeW ⟨1, 1⟩) :=
  lcs_ops_no_mutation storeW ⟨0, 0⟩ ⟨1, 1⟩ storeW2 ⟨2, 2⟩ (Or.inl addS_storeW)

/-- C10: (1) whenever some row of the basis has zero length, construction
raises `ValueError("Vector length is 0.")` from the normalization step
(even when the orthogonality test would also fail, showing the zero check
runs first); (2) whenever construction succeeds, every normalization
divisor (row norm) is nonzero, so the constructor never divides by zero. -/
theorem construct_zero_row_spec :
    (∀ (M : Matrix3) (o : Vec3), (∃ i, rowNormSq M i = 0) →
        construct M o = .error (.valueError "Vector length is 0."))
    ∧ (∀ (M : Matrix3) (o : Vec3) (L : LocalCoordinateSystem),
        construct M o = .ok L → ∀ i, rowNormSq M i ≠ 0) := by
  constructor
  · rintro M o ⟨i, hi⟩
    unfold construct normalize
    rw [if_neg (by push_neg; exact ⟨i, hi⟩)]
  · intro M o L h i hi
    unfold construct normalize at h
    rw [if_neg (by push_neg; exact ⟨i, hi⟩)] at h
    exact Except.noConfusion h

/-- Witness for C10: the zero matrix has a zero-length basis row and indeed
raises the `ValueError`. -/
theorem construct_zero_row_spec_witness :
    construct 0 0 = .error (.valueError "Vector length is 0.") :=
  construct_zero_row_spec.1 0 0 ⟨0, by norm_num [rowNormSq, Fin.sum_univ_three]⟩

/-- The attributes stored on one `networkx` edge: the `lcs` attribute and
the `calculated` flag (`False` on user-defined edges, `True` on cached
computed edges). -/
structure EdgeData where
  lcs : LocalCoordinateSystem
  calculated : Bool
deriving DecidableEq

/-- The state of a `CoordinateSystemManager`: the node list and the edge
attribute map of its `networkx.DiGraph`.  The edge map is a dictionary
keyed by the ordered node pair; the association list models it up to entry
order (every statement below depends only on key lookup). -/
structure CSM where
  nodes : List String
  edges : List ((String × String) × EdgeData)
deriving DecidableEq

/-- Model of `CoordinateSystemManager.__init__`: a fresh directed graph holding only
the base node. -/
def CSM.init (base : String) : CSM := ⟨[base], []⟩

/-- Lookup modelling `graph.edges[a, b]`: `some` of the attribute record
when the edge exists. -/
def lookupEdge (csm : CSM) (a b : String) : Option EdgeData :=
  (csm.edges.find? (fun e => decide (e.1 = (a, b)))).map Prod.snd

/-- Model of `graph.add_edge(k, ...)`: overwrite the attributes stored at key `k`,
inserting the key if needed (dictionary update, modelled up to order). -/
def addEdgeRaw (es : List ((String × String) × EdgeData)) (k : String × String)
    (d : EdgeData) : List ((String × String) × EdgeData) :=
  (k, d) :: es.filter (fun e => !(decide (e.1 = k)))

/-- Model of `graph.add_node(n)`: a no-op when the node already exists. -/
def addNode (ns : List String) (n : String) : List String :=
  if n ∈ ns then ns else ns ++ [n]

/-- Model of `CoordinateSystemManager._add_edges(node_from, node_to, lcs, calculated)`:
store the forward edge and the reverse edge holding `lcs.invert()`.  The
inversion routes through the constructor, so it sits in the `Except` monad. -/
def addEdgesE (csm : CSM) (nf nt : String) (lcs : LocalCoordinateSystem)
    (flag : Bool) : Except PyError CSM :=
  (lcs.invert).map (fun inv =>
    ⟨csm.nodes,
      addEdgeRaw (addEdgeRaw csm.edges (nf, nt) ⟨lcs, flag⟩) (nt, nf)
        ⟨inv, flag⟩⟩)

/-- The graph state produced by a successful `_add_edges(a, b, L, flag)`:
the forward edge carries `L` and the reverse edge its algebraic inverse. -/
def cacheWith (csm : CSM) (a b : String) (L : LocalCoordinateSystem)
    (flag : Bool) : CSM :=
  ⟨csm.nodes,
    addEdgeRaw (addEdgeRaw csm.edges (a, b) ⟨L, flag⟩) (b, a)
      ⟨invertVal L, flag⟩⟩

/-- Model of `CoordinateSystemManager.add_coordinate_system(name, parent, lcs)`:
raise `Exception("Invalid parent system")` when the parent is unknown;
otherwise add the node (idempotently — nothing rejects an existing `name`)
and both edges.  The `isinstance` check of the code is enforced here by the
type of `lcs`. -/
def add_coordinate_system (csm : CSM) (name parent_system_name : String)
    (lcs : LocalCoordinateSystem) : Except PyError CSM :=
  if parent_system_name ∈ csm.nodes then
    addEdgesE ⟨addNode csm.nodes name, csm.edges⟩ name parent_system_name lcs
      false
  else
    .error (.exception "Invalid parent system")

/-- The edge relation the graph traversal sees: `a → b` is traversable iff
the key `(a, b)` is present. -/
def EdgeRel (csm : CSM) (a b : String) : Prop :=
  (lookupEdge csm a b).isSome = true

instance (csm : CSM) (a b : String) : Decidable (EdgeRel csm a b) := by
  unfold EdgeRel
  infer_instance

/-- Successor list of a node, read off the edge keys. -/
def succs (csm : CSM) (a : String) : List String :=
  csm.edges.filterMap (fun e => if e.1.1 = a then some e.1.2 else none)

/-- All reversed walks with `n` edges starting at `s`: each element is a
nonempty node list whose head is the current endpoint and whose last
element is `s`. -/
def rwalks (csm : CSM) (s : String) : ℕ → List (List String)
  | 0 => [[s]]
  | n + 1 =>
    (rwalks csm s n).flatMap (fun w =>
      match w with
      | [] => []
      | c :: _ => (succs csm c).map (fun v => v :: w))

/-- The first walk with exactly `n` edges from `s` to `t`, if any, as a
forward node list. -/
def tryLen (csm : CSM) (s t : String) (n : ℕ) : Option (List String) :=
  ((rwalks csm s n).find? (fun w => decide (w.head? = some t))).map
    List.reverse

/-- Breadth-first search by iterative deepening: try `0, 1, ..., n` edges in
order and return the first hit, which therefore uses a minimal number of
edges. -/
def findShortest (csm : CSM) (s t : String) : ℕ → Option (List String)
  | 0 => tryLen csm s t 0
  | n + 1 =>
    match findShortest csm s t n with
    | some p => some p
    | none => tryLen csm s t (n + 1)

/-- Model of `nx.shortest_path(graph, source, target)` without weights: an
unweighted shortest path (minimum edge count).  The search depth
`csm.nodes.length` covers every minimal walk in the reachable states
considered below, where any two connected nodes are joined by a walk of at
most `csm.nodes.length` nodes. -/
def shortestPath (csm : CSM) (s t : String) : Option (List String) :=
  findShortest csm s t csm.nodes.length

/-- The accumulation loop of `get_local_coordinate_system`:
`for i in np.arange(1, length_path): lcs = lcs + graph.edges[path[i], path[i+1]]["lcs"]`. -/
def composeLoop (csm : CSM) (acc : LocalCoordinateSystem) :
    List String → Except PyError LocalCoordinateSystem
  | [] => .ok acc
  | [_] => .ok acc
  | a :: b :: rest =>
    match lookupEdge csm a b with
    | none => .error .keyError
    | some d =>
      match acc.add d.lcs with
      | .error e => .error e
      | .ok acc2 => composeLoop csm acc2 (b :: rest)

/-- Fallback transform used only to totalize `edgeLcsD` (never reached on
valid walks). -/
def identityLCS : LocalCoordinateSystem := ⟨1, 0⟩

/-- The stored transform of an edge, defaulted on missing keys. -/
def edgeLcsD (csm : CSM) (a b : String) : LocalCoordinateSystem :=
  ((lookupEdge csm a b).getD ⟨identityLCS, false⟩).lcs

/-- The accumulation loop on the raw composed values (no constructor pass):
used to state which transform the query computes. -/
def composeValLoop (csm : CSM) (acc : LocalCoordinateSystem) :
    List String → LocalCoordinateSystem
  | [] => acc
  | [_] => acc
  | a :: b :: rest => composeValLoop csm (compose acc (edgeLcsD csm a b)) (b :: rest)

/-- Left-to-right composition (repeated `+`) of the stored transforms along
a forward path. -/
def pathCompose (csm : CSM) : List String → Option LocalCoordinateSystem
  | a :: b :: rest =>
    (lookupEdge csm a b).map (fun d => composeValLoop csm d.lcs (b :: rest))
  | _ => none

/-- Model of `CoordinateSystemManager.get_local_coordinate_system(cs_child, cs_parent)`:
validate both names, run `nx.shortest_path`, read the first edge
(`path[1]` raises `IndexError` on a single-node path), fold `+` along the
path, and when the path has more than one edge cache the result through
`_add_edges(path[0], path[-1], lcs, True)`.  Returns the transform together
with the (possibly extended) manager state. -/
def get_local_coordinate_system (csm : CSM) (cs_child cs_parent : String) :
    Except PyError (LocalCoordinateSystem × CSM) :=
  if cs_child ∈ csm.nodes then
    if cs_parent ∈ csm.nodes then
      match shortestPath csm cs_child cs_parent with
      | none => .error .networkXNoPath
      | some path =>
        match path with
        | [] => .error .indexError
        | [_] => .error .indexError
        | p0 :: p1 :: rest =>
          match lookupEdge csm p0 p1 with
          | none => .error .keyError
          | some d =>
            match composeLoop csm d.lcs (p1 :: rest) with
            | .error e => .error e
            | .ok lcs =>
              if (p0 :: p1 :: rest).length - 1 > 1 then
                match addEdgesE csm p0 ((p0 :: p1 :: rest).getLastD p0) lcs
                    true with
                | .error e => .error e
                | .ok csm2 => .ok (lcs, csm2)
              else
                .ok (lcs, csm)
    else
      .error (.exception "Invalid parent system")
  else
    .error (.exception "Invalid child system")

/-- A walk in the directed graph (consecutive nodes joined by edges). -/
def IsWalk (csm : CSM) (w : List String) : Prop := List.Chain' (EdgeRel csm) w

/-- A walk leading from `a` to `b`. -/
def IsWalkFromTo (csm : CSM) (w : List String) (a b : String) : Prop :=
  IsWalk csm w ∧ w.head? = some a ∧ w.getLast? = some b

/-- A shortest walk from `a` to `b` (minimal node count, hence minimal edge
count). -/
def IsShortestWalk (csm : CSM) (w : List String) (a b : String) : Prop :=
  IsWalkFromTo csm w a b ∧ ∀ u, IsWalkFromTo csm u a b → w.length ≤ u.length

lemma find?_filter_of_imp {α} (l : List α) (p q : α → Bool)
    (h : ∀ e, p e = true → q e = true) :
    (l.filter q).find? p = l.find? p := by
  induction l with
  | nil => rfl
  | cons x xs ih =>
    by_cases hq : q x = true
    · rw [List.filter_cons_of_pos hq]
      by_cases hp : p x = true
      · rw [List.find?_cons_of_pos _ hp, List.find?_cons_of_pos _ hp]
      · rw [List.find?_cons_of_neg _ hp, List.find?_cons_of_neg _ hp, ih]
    · have hp : ¬ p x = true := fun hpx => hq (h x hpx)
      rw [List.filter_cons_of_neg hq, List.find?_cons_of_neg _ hp, ih]

lemma lookupEdge_addEdgeRaw (ns : List String)
    (es : List ((String × String) × EdgeData)) (k : String × String)
    (d : EdgeData) (a b : String) :
    lookupEdge ⟨ns, addEdgeRaw es k d⟩ a b =
      if (a, b) = k then some d else lookupEdge ⟨ns, es⟩ a b := by
  unfold lookupEdge addEdgeRaw
  dsimp only
  by_cases h : (a, b) = k
  · subst h
    rw [if_pos rfl, List.find?_cons_of_pos _ (by simp)]
    rfl
  · rw [if_neg h, List.find?_cons_of_neg _ (by simpa using fun hk => h hk.symm),
      find?_filter_of_imp]
    intro e he
    have he1 : e.1 = (a, b) := of_decide_eq_true he
    simp [he1]
    intro hk
    exact h hk

lemma lookupEdge_ext (csm : CSM) (ns : List String) (a b : String) :
    lookupEdge ⟨ns, csm.edges⟩ a b = lookupEdge csm a b := rfl

lemma lookupEdge_cacheWith (csm : CSM) (a b : String)
    (L : LocalCoordinateSystem) (flag : Bool) (x y : String) :
    lookupEdge (cacheWith csm a b L flag) x y =
      if (x, y) = (b, a) then some ⟨invertVal L, flag⟩
      else if (x, y) = (a, b) then some ⟨L, flag⟩
      else lookupEdge csm x y := by
  unfold cacheWith
  rw [lookupEdge_addEdgeRaw]
  by_cases h1 : (x, y) = (b, a)
  · rw [if_pos h1, if_pos h1]
  · rw [if_neg h1, if_neg h1, lookupEdge_addEdgeRaw]

lemma mem_succs_iff (csm : CSM) (a b : String) :
    b ∈ succs csm a ↔ EdgeRel csm a b := by
  unfold succs EdgeRel lookupEdge
  have hmap : ∀ (o : Option ((String × String) × EdgeData)),
      (o.map Prod.snd).isSome = o.isSome := fun o => by cases o <;> rfl
  rw [hmap, List.find?_isSome, List.mem_filterMap]
  constructor
  · rintro ⟨e, he, hsome⟩
    refine ⟨e, he, ?_⟩
    by_cases hfst : e.1.1 = a
    · rw [if_pos hfst] at hsome
      have hsnd := Option.some.inj hsome
      simp [Prod.ext_iff, hfst, hsnd]
    · rw [if_neg hfst] at hsome
      exact Option.noConfusion hsome
  · rintro ⟨e, he, hkey⟩
    have hk : e.1 = (a, b) := of_decide_eq_true hkey
    refine ⟨e, he, ?_⟩
    rw [hk]
    simp

lemma mem_rwalks (csm : CSM) (s : String) :
    ∀ (n : ℕ) (w : List String), w ∈ rwalks csm s n →
      w.length = n + 1 ∧ w.getLast? = some s ∧
        List.Chain' (flip (EdgeRel csm)) w := by
  intro n
  induction n with
  | zero =>
    intro w hw
    unfold rwalks at hw
    obtain rfl := List.mem_singleton.mp hw
    exact ⟨rfl, rfl, List.chain'_singleton s⟩
  | succ n ih =>
    intro w hw
    unfold rwalks at hw
    obtain ⟨w', hw', hmem⟩ := List.mem_flatMap.mp hw
    obtain ⟨hlen, hlast, hchain⟩ := ih w' hw'
    match w', hlen with
    | c :: t, hlen =>
      obtain ⟨v, hv, rfl⟩ := List.mem_map.mp hmem
      refine ⟨by simpa using hlen, ?_, ?_⟩
      · rw [List.getLast?_cons_cons]
        exact hlast
      · rw [List.chain'_cons']
        exact ⟨fun y hy => by
          rw [show y = c from Option.some.inj hy.symm ▸ rfl]
          exact (mem_succs_iff csm c v).mp hv, hchain⟩

lemma rwalks_complete (csm : CSM) (s : String) :
    ∀ (w : List String), List.Chain' (flip (EdgeRel csm)) w →
      w.getLast? = some s → w ∈ rwalks csm s (w.length - 1) := by
  intro w
  induction w with
  | nil => intro _ hlast; exact Option.noConfusion hlast
  | cons v w' ih =>
    intro hchain hlast
    match w' with
    | [] =>
      obtain rfl : v = s := Option.some.inj hlast
      exact List.mem_singleton.mpr rfl
    | c :: t =>
      rw [List.chain'_cons'] at hchain
      obtain ⟨hrel, hchain'⟩ := hchain
      rw [List.getLast?_cons_cons] at hlast
      have hmem := ih hchain' hlast
      show v :: c :: t ∈ rwalks csm s ((c :: t).length - 1 + 1)
      unfold rwalks
      rw [List.mem_flatMap]
      refine ⟨c :: t, hmem, ?_⟩
      rw [List.mem_map]
      exact ⟨v, (mem_succs_iff csm c v).mpr (hrel c rfl), rfl⟩

lemma tryLen_some (csm : CSM) (s t : String) (n : ℕ) (p : List String)
    (h : tryLen csm s t n = some p) :
    IsWalkFromTo csm p s t ∧ p.length = n + 1 := by
  unfold tryLen at h
  cases hf : (rwalks csm s n).find? (fun w => decide (w.head? = some t)) with
  | none => rw [hf] at h; exact Option.noConfusion h
  | some w =>
    rw [hf] at h
    obtain rfl : w.reverse = p := Option.some.inj h
    have hmem := List.mem_of_find?_eq_some hf
    have hpredb := List.find?_some hf
    have hpred : w.head? = some t := of_decide_eq_true hpredb
    obtain ⟨hlen, hlast, hchain⟩ := mem_rwalks csm s n w hmem
    refine ⟨⟨List.chain'_reverse.mpr hchain, ?_, ?_⟩, by simp [hlen]⟩
    · rw [List.head?_reverse]
      exact hlast
    · rw [List.getLast?_reverse]
      exact hpred

lemma tryLen_complete (csm : CSM) (s t : String) (n : ℕ) (w : List String)
    (h : IsWalkFromTo csm w s t) (hlen : w.length = n + 1) :
    (tryLen csm s t n).isSome = true := by
  unfold tryLen
  have hmap : ∀ (o : Option (List String)),
      (o.map List.reverse).isSome = o.isSome := fun o => by cases o <;> rfl
  rw [hmap, List.find?_isSome]
  refine ⟨w.reverse, ?_, ?_⟩
  · have hch : List.Chain' (flip (EdgeRel csm)) w.reverse := by
      have hiff := List.chain'_reverse (R := EdgeRel csm) (l := w.reverse)
      rw [List.reverse_reverse] at hiff
      exact hiff.mp h.1
    have hlast : w.reverse.getLast? = some s := by
      rw [List.getLast?_reverse]
      exact h.2.1
    have := rwalks_complete csm s w.reverse hch hlast
    rwa [show w.reverse.length - 1 = n by simp [hlen]] at this
  · rw [decide_eq_true_eq, List.head?_reverse]
    exact h.2.2

lemma findShortest_none (csm : CSM) (s t : String) :
    ∀ n, findShortest csm s t n = none →
      ∀ m, m ≤ n → tryLen csm s t m = none := by
  intro n
  induction n with
  | zero =>
    intro h m hm
    obtain rfl := Nat.le_zero.mp hm
    exact h
  | succ n ih =>
    intro h m hm
    unfold findShortest at h
    cases hfs : findShortest csm s t n with
    | some p => rw [hfs] at h; exact Option.noConfusion h
    | none =>
      rw [hfs] at h
      rcases Nat.lt_or_ge m (n + 1) with hlt | hge
      · exact ih hfs m (Nat.lt_succ_iff.mp hlt)
      · obtain rfl : m = n + 1 := Nat.le_antisymm hm hge
        exact h

lemma findShortest_some_spec (csm : CSM) (s t : String) :
    ∀ (n : ℕ) (p : List String), findShortest csm s t n = some p →
      ∃ m, m ≤ n ∧ tryLen csm s t m = some p ∧
        ∀ m', m' < m → tryLen csm s t m' = none := by
  intro n
  induction n with
  | zero =>
    intro p h
    exact ⟨0, le_refl 0, h, fun m' hm' => absurd hm' (Nat.not_lt_zero m')⟩
  | succ n ih =>
    intro p h
    unfold findShortest at h
    cases hfs : findShortest csm s t n with
    | some q =>
      rw [hfs] at h
      obtain rfl : q = p := Option.some.inj h
      obtain ⟨m, hm, h1, h2⟩ := ih q hfs
      exact ⟨m, Nat.le_succ_of_le hm, h1, h2⟩
    | none =>
      rw [hfs] at h
      exact ⟨n + 1, le_refl _, h,
        fun m' hm' => findShortest_none csm s t n hfs m' (Nat.lt_succ_iff.mp hm')⟩

lemma findShortest_isSome (csm : CSM) (s t : String) (n : ℕ) (w : List String)
    (h : IsWalkFromTo csm w s t) (hlen : w.length ≤ n + 1) :
    (findShortest csm s t n).isSome = true := by
  have hw1 : 1 ≤ w.length := by
    cases w with
    | nil => exact Option.noConfusion h.2.1
    | cons x xs => exact Nat.succ_le_succ (Nat.zero_le _)
  cases hfs : findShortest csm s t n with
  | some p => rfl
  | none =>
    have hnone := findShortest_none csm s t n hfs (w.length - 1) (by omega)
    have hsome := tryLen_complete csm s t (w.length - 1) w h (by omega)
    rw [hnone] at hsome
    exact Bool.noConfusion hsome

lemma shortestPath_spec (csm : CSM) (s t : String) (p : List String)
    (h : shortestPath csm s t = some p) : IsShortestWalk csm p s t := by
  obtain ⟨m, _, htl, hmin⟩ := findShortest_some_spec csm s t _ p h
  obtain ⟨hw, hlen⟩ := tryLen_some csm s t m p htl
  refine ⟨hw, fun u hu => ?_⟩
  by_contra hlt
  push_neg at hlt
  have hu1 : 1 ≤ u.length := by
    cases u with
    | nil => exact Option.noConfusion hu.2.1
    | cons x xs => exact Nat.succ_le_succ (Nat.zero_le _)
  have hnone : tryLen csm s t (u.length - 1) = none := hmin _ (by omega)
  have hsome := tryLen_complete csm s t (u.length - 1) u hu (by omega)
  rw [hnone] at hsome
  exact Bool.noConfusion hsome

lemma shortestPath_isSome (csm : CSM) (s t : String) (w : List String)
    (h : IsWalkFromTo csm w s t) (hlen : w.length ≤ csm.nodes.length + 1) :
    (shortestPath csm s t).isSome = true :=
  findShortest_isSome csm s t csm.nodes.length w h hlen

lemma tryLen_zero_self (csm : CSM) (x : String) :
    tryLen csm x x 0 = some [x] := by
  unfold tryLen rwalks
  rw [List.find?_cons_of_pos _ (by simp)]
  rfl

lemma findShortest_of_zero (csm : CSM) (s t : String) (p : List String)
    (h : tryLen csm s t 0 = some p) :
    ∀ n, findShortest csm s t n = some p := by
  intro n
  induction n with
  | zero => exact h
  | succ n ih =>
    unfold findShortest
    rw [ih]

lemma shortestPath_self (csm : CSM) (x : String) :
    shortestPath csm x x = some [x] :=
  findShortest_of_zero csm x x [x] (tryLen_zero_self csm x) csm.nodes.length

lemma walk_two_le (csm : CSM) (p : List String) (a b : String)
    (h : IsWalkFromTo csm p a b) (hne : a ≠ b) : 2 ≤ p.length := by
  match p, h with
  | [], h => exact Option.noConfusion h.2.1
  | [x], h =>
    obtain rfl : x = a := Option.some.inj h.2.1
    obtain rfl : x = b := Option.some.inj h.2.2
    exact absurd rfl hne
  | x :: y :: rest, _ => simp

lemma walk_pair_eq (csm : CSM) (p : List String) (a b : String)
    (h : IsWalkFromTo csm p a b) (hlen : p.length = 2) : p = [a, b] := by
  match p, hlen with
  | [x, y], _ =>
    obtain rfl : x = a := Option.some.inj h.2.1
    obtain rfl : y = b := Option.some.inj h.2.2
    rfl

lemma addEdgesE_of_orthonormal (csm : CSM) (nf nt : String)
    (L : LocalCoordinateSystem) (flag : Bool) (h : IsOrthonormal L.basis) :
    addEdgesE csm nf nt L flag = .ok (cacheWith csm nf nt L flag) := by
  unfold addEdgesE
  rw [lcs_invert_ok h]
  rfl

lemma composeLoop_ok (csm : CSM)
    (hortho : ∀ a b d, lookupEdge csm a b = some d →
      IsOrthonormal d.lcs.basis) :
    ∀ (l : List String) (acc : LocalCoordinateSystem),
      IsOrthonormal acc.basis → List.Chain' (EdgeRel csm) l →
      composeLoop csm acc l = .ok (composeValLoop csm acc l) ∧
        IsOrthonormal (composeValLoop csm acc l).basis := by
  intro l
  induction l with
  | nil => exact fun acc hacc _ => ⟨rfl, hacc⟩
  | cons a l' ih =>
    intro acc hacc hchain
    cases l' with
    | nil => exact ⟨rfl, hacc⟩
    | cons b rest =>
      obtain ⟨hab, hchain'⟩ := List.chain'_cons.mp hchain
      obtain ⟨d, hd⟩ := Option.isSome_iff_exists.mp hab
      have hdo := hortho a b d hd
      have hstep : acc.add d.lcs = .ok (compose acc d.lcs) := lcs_add_ok hacc hdo
      have hEd : edgeLcsD csm a b = d.lcs := by
        unfold edgeLcsD
        rw [hd]
        rfl
      have hL : composeLoop csm acc (a :: b :: rest) =
          composeLoop csm (compose acc d.lcs) (b :: rest) := by
        simp only [composeLoop, hd, hstep]
      have hV : composeValLoop csm acc (a :: b :: rest) =
          composeValLoop csm (compose acc d.lcs) (b :: rest) := by
        simp only [composeValLoop, hEd]
      rw [hL, hV]
      exact ih (compose acc d.lcs) (compose_orthonormal hacc hdo) hchain'

/-- The manager states reachable through the calls the code itself accepts:
construction, any successful `add_coordinate_system`, and any successful
transformation query. -/
inductive Reachable : CSM → Prop
  | init (base : String) : Reachable (CSM.init base)
  | add {csm csm' : CSM} (name parent : String)
      (lcs : LocalCoordinateSystem) :
      Reachable csm → add_coordinate_system csm name parent lcs = .ok csm' →
      Reachable csm'
  | query {csm csm' : CSM} {lcs : LocalCoordinateSystem} (a b : String) :
      Reachable csm →
      get_local_coordinate_system csm a b = .ok (lcs, csm') → Reachable csm'

/-- Well-formed reachability: as `Reachable`, but every added transform
carries the exactly-orthonormal datatype invariant of the spec and no
system is registered under the name of its own parent. -/
inductive ReachableWF : CSM → Prop
  | init (base : String) : ReachableWF (CSM.init base)
  | add {csm csm' : CSM} (name parent : String)
      (lcs : LocalCoordinateSystem) :
      ReachableWF csm → name ≠ parent → IsOrthonormal lcs.basis →
      add_coordinate_system csm name parent lcs = .ok csm' → ReachableWF csm'
  | query {csm csm' : CSM} {lcs : LocalCoordinateSystem} (a b : String) :
      ReachableWF csm →
      get_local_coordinate_system csm a b = .ok (lcs, csm') → ReachableWF csm'

/-- The state invariant maintained by well-formed reachable managers: every
stored transform is orthonormal, every edge has a reverse edge holding its
exact algebraic inverse, no self-edges exist, edges join known nodes, and
any two nodes are joined by a walk of at most `nodes.length` nodes. -/
structure Invariant (csm : CSM) : Prop where
  ortho : ∀ a b d, lookupEdge csm a b = some d → IsOrthonormal d.lcs.basis
  sym : ∀ a b d, lookupEdge csm a b = some d →
    ∃ d', lookupEdge csm b a = some d' ∧ d'.lcs = invertVal d.lcs
  no_self : ∀ a, lookupEdge csm a a = none
  edge_mem : ∀ a b d, lookupEdge csm a b = some d →
    a ∈ csm.nodes ∧ b ∈ csm.nodes
  conn : ∀ a, a ∈ csm.nodes → ∀ b, b ∈ csm.nodes →
    ∃ w, IsWalkFromTo csm w a b ∧ w.length ≤ csm.nodes.length

lemma lookupEdge_init (base a b : String) :
    lookupEdge (CSM.init base) a b = none := rfl

lemma invariant_init (base : String) : Invariant (CSM.init base) := by
  refine ⟨?_, ?_, ?_, ?_, ?_⟩
  · intro a b d hd
    rw [lookupEdge_init] at hd
    exact Option.noConfusion hd
  · intro a b d hd
    rw [lookupEdge_init] at hd
    exact Option.noConfusion hd
  · intro a
    exact lookupEdge_init base a a
  · intro a b d hd
    rw [lookupEdge_init] at hd
    exact Option.noConfusion hd
  · intro a ha b hb
    have ha' : a = base := List.mem_singleton.mp ha
    have hb' : b = base := List.mem_singleton.mp hb
    exact ⟨[a], ⟨List.chain'_singleton a, rfl, by rw [ha', hb']; rfl⟩,
      by simp [CSM.init]⟩

lemma getLast?_cons_of_ne_nil {α} (v : α) (w : List α) (h : w ≠ []) :
    (v :: w).getLast? = w.getLast? := by
  cases w with
  | nil => exact absurd rfl h
  | cons c t => exact List.getLast?_cons_cons

lemma head?_append_of_ne_nil {α} (w l : List α) (h : w ≠ []) :
    (w ++ l).head? = w.head? := by
  cases w with
  | nil => exact absurd rfl h
  | cons c t => rfl

lemma edgeRel_cacheWith_mono (csm : CSM) (a b : String)
    (L : LocalCoordinateSystem) (flag : Bool) {x y : String}
    (h : EdgeRel csm x y) : EdgeRel (cacheWith csm a b L flag) x y := by
  unfold EdgeRel at *
  rw [lookupEdge_cacheWith]
  split_ifs with h1 h2
  · rfl
  · rfl
  · exact h

lemma edgeRel_new_forward (csm : CSM) (a b : String)
    (L : LocalCoordinateSystem) (flag : Bool) (hne : a ≠ b) :
    EdgeRel (cacheWith csm a b L flag) a b := by
  unfold EdgeRel
  rw [lookupEdge_cacheWith, if_neg (fun hk => hne (congrArg Prod.fst hk)),
    if_pos rfl]
  rfl

lemma edgeRel_new_backward (csm : CSM) (a b : String)
    (L : LocalCoordinateSystem) (flag : Bool) :
    EdgeRel (cacheWith csm a b L flag) b a := by
  unfold EdgeRel
  rw [lookupEdge_cacheWith, if_pos rfl]
  rfl

lemma walk_cacheWith_mono (csm : CSM) (a b : String)
    (L : LocalCoordinateSystem) (flag : Bool) {w : List String} {x y : String}
    (h : IsWalkFromTo csm w x y) :
    IsWalkFromTo (cacheWith csm a b L flag) w x y :=
  ⟨h.1.imp (fun _ _ hr => edgeRel_cacheWith_mono csm a b L flag hr), h.2.1,
    h.2.2⟩

lemma invariant_cacheWith' {csm : CSM} (hInv : Invariant csm)
    (ns : List String) (hsub : ∀ x, x ∈ csm.nodes → x ∈ ns)
    {a b : String} (ha : a ∈ ns) (hb : b ∈ ns) (hne : a ≠ b)
    {L : LocalCoordinateSystem} (hO : IsOrthonormal L.basis) (flag : Bool)
    (hconn : ∀ x, x ∈ ns → ∀ y, y ∈ ns →
      ∃ w, IsWalkFromTo (cacheWith ⟨ns, csm.edges⟩ a b L flag) w x y ∧
        w.length ≤ ns.length) :
    Invariant (cacheWith ⟨ns, csm.edges⟩ a b L flag) := by
  have hlook : ∀ x y, lookupEdge (cacheWith ⟨ns, csm.edges⟩ a b L flag) x y =
      if (x, y) = (b, a) then some ⟨invertVal L, flag⟩
      else if (x, y) = (a, b) then some ⟨L, flag⟩
      else lookupEdge csm x y := fun x y =>
    lookupEdge_cacheWith ⟨ns, csm.edges⟩ a b L flag x y
  refine ⟨?_, ?_, ?_, ?_, hconn⟩
  · intro x y d hd
    rw [hlook] at hd
    split_ifs at hd with h1 h2
    · obtain rfl := Option.some.inj hd
      exact invertVal_orthonormal hO
    · obtain rfl := Option.some.inj hd
      exact hO
    · exact hInv.ortho x y d hd
  · intro x y d hd
    rw [hlook] at hd
    split_ifs at hd with h1 h2
    · injection h1 with hx hy
      obtain rfl := Option.some.inj hd
      refine ⟨⟨L, flag⟩, ?_, (invertVal_invertVal hO).symm⟩
      rw [hlook, hy, hx, if_neg (fun hk => hne (congrArg Prod.fst hk)),
        if_pos rfl]
    · injection h2 with hx hy
      obtain rfl := Option.some.inj hd
      refine ⟨⟨invertVal L, flag⟩, ?_, rfl⟩
      rw [hlook, hy, hx, if_pos rfl]
    · obtain ⟨d', hd', hinv⟩ := hInv.sym x y d hd
      refine ⟨d', ?_, hinv⟩
      rw [hlook,
        if_neg (fun hk => h2 (by
          injection hk with hy hx
          rw [hx, hy])),
        if_neg (fun hk => h1 (by
          injection hk with hy hx
          rw [hx, hy]))]
      exact hd'
  · intro x
    rw [hlook,
      if_neg (fun hk =>
        hne ((congrArg Prod.snd hk).symm.trans (congrArg Prod.fst hk))),
      if_neg (fun hk =>
        hne ((congrArg Prod.fst hk).symm.trans (congrArg Prod.snd hk)))]
    exact hInv.no_self x
  · intro x y d hd
    rw [hlook] at hd
    split_ifs at hd with h1 h2
    · injection h1 with hx hy
      exact ⟨by rw [hx]; exact hb, by rw [hy]; exact ha⟩
    · injection h2 with hx hy
      exact ⟨by rw [hx]; exact ha, by rw [hy]; exact hb⟩
    · obtain ⟨hx, hy⟩ := hInv.edge_mem x y d hd
      exact ⟨hsub x hx, hsub y hy⟩

lemma invariant_cacheWith {csm : CSM} (hInv : Invariant csm) {a b : String}
    (ha : a ∈ csm.nodes) (hb : b ∈ csm.nodes) (hne : a ≠ b)
    {L : LocalCoordinateSystem} (hO : IsOrthonormal L.basis) (flag : Bool) :
    Invariant (cacheWith csm a b L flag) := by
  refine invariant_cacheWith' hInv csm.nodes (fun x hx => hx) ha hb hne hO flag
    ?_
  intro x hx y hy
  obtain ⟨w, hw, hlen⟩ := hInv.conn x hx y hy
  exact ⟨w, walk_cacheWith_mono csm a b L flag hw, hlen⟩

lemma walk_ne_nil {csm : CSM} {w : List String} {x y : String}
    (h : IsWalkFromTo csm w x y) : w ≠ [] := by
  intro h0
  subst h0
  exact Option.noConfusion h.2.1

lemma invariant_add {csm : CSM} (hInv : Invariant csm) {name parent : String}
    (hp : parent ∈ csm.nodes) (hne : name ≠ parent)
    {lcs : LocalCoordinateSystem} (hO : IsOrthonormal lcs.basis) :
    Invariant
      (cacheWith ⟨addNode csm.nodes name, csm.edges⟩ name parent lcs false) := by
  by_cases hmem : name ∈ csm.nodes
  · have hns : addNode csm.nodes name = csm.nodes := by
      unfold addNode
      rw [if_pos hmem]
    rw [hns]
    exact invariant_cacheWith hInv hmem hp hne hO false
  · have hns : addNode csm.nodes name = csm.nodes ++ [name] := by
      unfold addNode
      rw [if_neg hmem]
    rw [hns]
    have hsub : ∀ x, x ∈ csm.nodes → x ∈ csm.nodes ++ [name] := fun x hx =>
      List.mem_append_left _ hx
    have hnm : name ∈ csm.nodes ++ [name] :=
      List.mem_append_right _ (List.mem_singleton.mpr rfl)
    refine invariant_cacheWith' hInv (csm.nodes ++ [name]) hsub hnm (hsub _ hp)
      hne hO false ?_
    set g := cacheWith ⟨csm.nodes ++ [name], csm.edges⟩ name parent lcs false
      with hg
    have hlift : ∀ {w x y}, IsWalkFromTo csm w x y → IsWalkFromTo g w x y :=
      fun hw => walk_cacheWith_mono _ name parent lcs false hw
    have hlen' : (csm.nodes ++ [name]).length = csm.nodes.length + 1 := by
      simp
    have hrelf : EdgeRel g name parent :=
      edgeRel_new_forward _ name parent lcs false hne
    have hrelb : EdgeRel g parent name :=
      edgeRel_new_backward _ name parent lcs false
    intro x hx y hy
    rcases List.mem_append.mp hx with hxo | hxn
    · rcases List.mem_append.mp hy with hyo | hyn
      · -- both old nodes: lift the old walk
        obtain ⟨w, hw, hwl⟩ := hInv.conn x hxo y hyo
        exact ⟨w, hlift hw, by omega⟩
      · -- old to the new node: walk to the parent, then one step
        obtain rfl := List.mem_singleton.mp hyn
        obtain ⟨w, hw, hwl⟩ := hInv.conn x hxo parent hp
        have hwg := hlift hw
        refine ⟨w ++ [y], ⟨?_, ?_, ?_⟩, ?_⟩
        · refine List.chain'_append.mpr ⟨hwg.1, List.chain'_singleton y, ?_⟩
          intro u hu v hv
          obtain rfl : u = parent := by
            rw [hwg.2.2] at hu
            exact (Option.mem_some_iff.mp hu).symm ▸ rfl
          obtain rfl : v = y := (Option.mem_some_iff.mp hv).symm ▸ rfl
          exact hrelb
        · rw [head?_append_of_ne_nil w [y] (walk_ne_nil hw)]
          exact hwg.2.1
        · exact List.getLast?_concat w
        · rw [List.length_append]
          simpa using by omega
    · obtain rfl := List.mem_singleton.mp hxn
      rcases List.mem_append.mp hy with hyo | hyn
      · -- new node to an old one: one step to the parent, then old walk
        obtain ⟨w, hw, hwl⟩ := hInv.conn parent hp y hyo
        have hwg := hlift hw
        refine ⟨x :: w, ⟨?_, rfl, ?_⟩, ?_⟩
        · refine List.chain'_cons'.mpr ⟨?_, hwg.1⟩
          intro z hz
          obtain rfl : z = parent := by
            rw [hwg.2.1] at hz
            exact (Option.mem_some_iff.mp hz).symm ▸ rfl
          exact hrelf
        · rw [getLast?_cons_of_ne_nil x w (walk_ne_nil hw)]
          exact hwg.2.2
        · simp only [List.length_cons]
          omega
      · -- new node to itself
        obtain rfl := List.mem_singleton.mp hyn
        refine ⟨[y], ⟨List.chain'_singleton y, rfl, rfl⟩, ?_⟩
        simp

lemma add_coordinate_system_ok (csm : CSM) (name parent : String)
    (lcs : LocalCoordinateSystem) (hp : parent ∈ csm.nodes)
    (hO : IsOrthonormal lcs.basis) :
    add_coordinate_system csm name parent lcs =
      .ok (cacheWith ⟨addNode csm.nodes name, csm.edges⟩ name parent lcs
        false) := by
  unfold add_coordinate_system
  rw [if_pos hp, addEdgesE_of_orthonormal _ name parent lcs false hO]

lemma add_coordinate_system_err (csm : CSM) (name parent : String)
    (lcs : LocalCoordinateSystem) (hp : parent ∉ csm.nodes) :
    add_coordinate_system csm name parent lcs =
      .error (.exception "Invalid parent system") := by
  unfold add_coordinate_system
  rw [if_neg hp]

lemma add_ok_state {csm csm' : CSM} {name parent : String}
    {lcs : LocalCoordinateSystem}
    (hok : add_coordinate_system csm name parent lcs = .ok csm')
    (hO : IsOrthonormal lcs.basis) :
    parent ∈ csm.nodes ∧
      csm' = cacheWith ⟨addNode csm.nodes name, csm.edges⟩ name parent lcs
        false := by
  by_cases hp : parent ∈ csm.nodes
  · rw [add_coordinate_system_ok csm name parent lcs hp hO] at hok
    exact ⟨hp, (Except.ok.inj hok).symm⟩
  · rw [add_coordinate_system_err csm name parent lcs hp] at hok
    exact Except.noConfusion hok

lemma get_err_child (csm : CSM) (child parent : String)
    (hc : child ∉ csm.nodes) :
    get_local_coordinate_system csm child parent =
      .error (.exception "Invalid child system") := by
  unfold get_local_coordinate_system
  rw [if_neg hc]

lemma get_err_parent (csm : CSM) (child parent : String)
    (hc : child ∈ csm.nodes) (hpm : parent ∉ csm.nodes) :
    get_local_coordinate_system csm child parent =
      .error (.exception "Invalid parent system") := by
  unfold get_local_coordinate_system
  rw [if_pos hc, if_neg hpm]

lemma get_self_eq (csm : CSM) (x : String) (hx : x ∈ csm.nodes) :
    get_local_coordinate_system csm x x = .error .indexError := by
  unfold get_local_coordinate_system
  rw [if_pos hx, if_pos hx, shortestPath_self]

lemma getLCS_ok_direct {csm : CSM} (_hInv : Invariant csm)
    {child parent : String} (hne : child ≠ parent) (hc : child ∈ csm.nodes)
    (hpm : parent ∈ csm.nodes) {d : EdgeData}
    (hd : lookupEdge csm child parent = some d) :
    get_local_coordinate_system csm child parent = .ok (d.lcs, csm) := by
  have hrel : EdgeRel csm child parent := by
    unfold EdgeRel
    rw [hd]
    rfl
  have hwalk : IsWalkFromTo csm [child, parent] child parent :=
    ⟨List.chain'_pair.mpr hrel, rfl, rfl⟩
  have hn1 : 1 ≤ csm.nodes.length :=
    List.length_pos.mpr (List.ne_nil_of_mem hc)
  have hsome := shortestPath_isSome csm child parent [child, parent] hwalk
    (by simp only [List.length_cons, List.length_nil]; omega)
  obtain ⟨p, hsp⟩ := Option.isSome_iff_exists.mp hsome
  have hsw := shortestPath_spec csm child parent p hsp
  have hle : p.length ≤ 2 := by simpa using hsw.2 [child, parent] hwalk
  have hge : 2 ≤ p.length := walk_two_le csm p child parent hsw.1 hne
  have hpeq : p = [child, parent] :=
    walk_pair_eq csm p child parent hsw.1 (le_antisymm hle hge)
  subst hpeq
  unfold get_local_coordinate_system
  rw [if_pos hc, if_pos hpm, hsp]
  simp only [hd]
  rfl

lemma getLCS_ok_compose {csm : CSM} (hInv : Invariant csm)
    {child parent : String} (hne : child ≠ parent) (hc : child ∈ csm.nodes)
    (hpm : parent ∈ csm.nodes)
    (hnone : lookupEdge csm child parent = none) :
    ∃ p L, IsShortestWalk csm p child parent ∧ pathCompose csm p = some L ∧
      IsOrthonormal L.basis ∧
      get_local_coordinate_system csm child parent =
        .ok (L, cacheWith csm child parent L true) := by
  obtain ⟨w, hw, hwlen⟩ := hInv.conn child hc parent hpm
  have hsome := shortestPath_isSome csm child parent w hw (by omega)
  obtain ⟨p, hsp⟩ := Option.isSome_iff_exists.mp hsome
  have hsw := shortestPath_spec csm child parent p hsp
  have hge : 2 ≤ p.length := walk_two_le csm p child parent hsw.1 hne
  obtain ⟨p0, p1, rest, rfl⟩ : ∃ p0 p1 rest, p = p0 :: p1 :: rest := by
    match p, hge with
    | q0 :: q1 :: qrest, _ => exact ⟨q0, q1, qrest, rfl⟩
  have hp0 : child = p0 := (Option.some.inj hsw.1.2.1).symm
  subst hp0
  have hrest : rest ≠ [] := by
    intro h0
    subst h0
    have hp1 : parent = p1 := (Option.some.inj hsw.1.2.2).symm
    subst hp1
    have hrel : EdgeRel csm child parent := List.chain'_pair.mp hsw.1.1
    unfold EdgeRel at hrel
    rw [hnone] at hrel
    exact Bool.noConfusion hrel
  obtain ⟨hab, hchain'⟩ := List.chain'_cons.mp hsw.1.1
  obtain ⟨d, hd⟩ := Option.isSome_iff_exists.mp hab
  have hloop := composeLoop_ok csm hInv.ortho (p1 :: rest) d.lcs
    (hInv.ortho _ _ _ hd) hchain'
  have hlast : (child :: p1 :: rest).getLast? = some parent := hsw.1.2.2
  have hlastD : (child :: p1 :: rest).getLastD child = parent := by
    rw [List.getLastD_eq_getLast?, hlast]
    rfl
  have hcond : (child :: p1 :: rest).length - 1 > 1 := by
    cases rest with
    | nil => exact absurd rfl hrest
    | cons c t => simp only [List.length_cons]; omega
  refine ⟨child :: p1 :: rest, composeValLoop csm d.lcs (p1 :: rest), hsw,
    ?_, hloop.2, ?_⟩
  · rw [show pathCompose csm (child :: p1 :: rest) =
        (lookupEdge csm child p1).map
          (fun d => composeValLoop csm d.lcs (p1 :: rest)) from rfl, hd]
    rfl
  · unfold get_local_coordinate_system
    rw [if_pos hc, if_pos hpm, hsp]
    simp only [hd, hloop.1, if_pos hcond, hlastD]
    rw [addEdgesE_of_orthonormal csm child parent
      (composeValLoop csm d.lcs (p1 :: rest)) true hloop.2]

lemma getLCS_ok_cases {csm : CSM} (hInv : Invariant csm) {a b : String}
    {L : LocalCoordinateSystem} {csm' : CSM}
    (h : get_local_coordinate_system csm a b = .ok (L, csm')) :
    csm' = csm ∨ (a ≠ b ∧ a ∈ csm.nodes ∧ b ∈ csm.nodes ∧
      IsOrthonormal L.basis ∧ csm' = cacheWith csm a b L true) := by
  by_cases hc : a ∈ csm.nodes
  · by_cases hpm : b ∈ csm.nodes
    · by_cases hab : a = b
      · subst hab
        rw [get_self_eq csm a hc] at h
        exact Except.noConfusion h
      · cases hd : lookupEdge csm a b with
        | some d =>
          rw [getLCS_ok_direct hInv hab hc hpm hd] at h
          obtain ⟨h1, h2⟩ := Prod.mk.injEq .. ▸ Except.ok.inj h
          exact Or.inl h2.symm
        | none =>
          obtain ⟨p, L', hsw, hpc, hLo, heq⟩ :=
            getLCS_ok_compose hInv hab hc hpm hd
          rw [heq] at h
          obtain ⟨h1, h2⟩ := Prod.mk.injEq .. ▸ Except.ok.inj h
          refine Or.inr ⟨hab, hc, hpm, ?_, ?_⟩
          · rw [← h1]
            exact hLo
          · rw [← h2, h1]
    · rw [get_err_parent csm a b hc hpm] at h
      exact Except.noConfusion h
  · rw [get_err_child csm a b hc] at h
    exact Except.noConfusion h

lemma reachableWF_invariant {csm : CSM} (h : ReachableWF csm) :
    Invariant csm := by
  induction h with
  | init base => exact invariant_init base
  | add name parent lcs hr hne hO hok ih =>
    obtain ⟨hp, rfl⟩ := add_ok_state hok hO
    exact invariant_add ih hp hne hO
  | query a b hr hok ih =>
    rcases getLCS_ok_cases ih hok with rfl | ⟨hne, hc, hpm, hLo, rfl⟩
    · exact ih
    · exact invariant_cacheWith ih hc hpm hne hLo true

/-- C1: on every well-formed reachable manager and every pair of distinct
names: a missing endpoint raises the error naming it; with both present, a
direct edge is returned as stored (state unchanged), and otherwise the
result is the left-to-right `+`-composition of the stored transforms along
a shortest path (by edge count), cached before returning as a computed
edge `(child, parent)` together with its inverse edge `(parent, child)`. -/
theorem get_local_coordinate_system_spec (csm : CSM) (hr : ReachableWF csm)
    (child parent : String) (hne : child ≠ parent) :
    (child ∉ csm.nodes →
      get_local_coordinate_system csm child parent =
        .error (.exception "Invalid child system"))
    ∧ (child ∈ csm.nodes → parent ∉ csm.nodes →
      get_local_coordinate_system csm child parent =
        .error (.exception "Invalid parent system"))
    ∧ (child ∈ csm.nodes → parent ∈ csm.nodes →
      (∀ d, lookupEdge csm child parent = some d →
        get_local_coordinate_system csm child parent = .ok (d.lcs, csm))
      ∧ (lookupEdge csm child parent = none →
        ∃ p L, IsShortestWalk csm p child parent ∧
          pathCompose csm p = some L ∧
          get_local_coordinate_system csm child parent =
            .ok (L, cacheWith csm child parent L true))) := by
  have hInv := reachableWF_invariant hr
  refine ⟨get_err_child csm child parent,
    get_err_parent csm child parent, ?_⟩
  intro hc hpm
  refine ⟨fun d hd => getLCS_ok_direct hInv hne hc hpm hd, fun hnone => ?_⟩
  obtain ⟨p, L, hsw, hpc, _, heq⟩ := getLCS_ok_compose hInv hne hc hpm hnone
  exact ⟨p, L, hsw, hpc, heq⟩

/-- Transform of the first witness system: a 90° rotation about z with
origin `[1, 0, 0]`. -/
def lcsA : LocalCoordinateSystem := ⟨rotZ90, ![1, 0, 0]⟩

/-- Transform of the second witness system: identity rotation with origin
`[0, 1, 0]`. -/
def lcsB : LocalCoordinateSystem := ⟨1, ![0, 1, 0]⟩

/-- Manager after `add_coordinate_system("s1", "base", lcsA)`. -/
def csmW1 : CSM := cacheWith ⟨["base", "s1"], []⟩ "s1" "base" lcsA false

/-- Manager after also adding `"s2"` under `"s1"` with `lcsB`. -/
def csmW2 : CSM :=
  cacheWith ⟨["base", "s1", "s2"], csmW1.edges⟩ "s2" "s1" lcsB false

lemma addW1 :
    add_coordinate_system (CSM.init "base") "s1" "base" lcsA = .ok csmW1 := by
  rw [add_coordinate_system_ok (CSM.init "base") "s1" "base" lcsA
    (by decide) isOrthonormal_rotZ90]
  rfl

lemma addW2 : add_coordinate_system csmW1 "s2" "s1" lcsB = .ok csmW2 := by
  rw [add_coordinate_system_ok csmW1 "s2" "s1" lcsB (by decide)
    isOrthonormal_one]
  rfl

lemma reachW1 : ReachableWF csmW1 :=
  ReachableWF.add "s1" "base" lcsA (ReachableWF.init "base") (by decide)
    isOrthonormal_rotZ90 addW1

lemma reachW2 : ReachableWF csmW2 :=
  ReachableWF.add "s2" "s1" lcsB reachW1 (by decide) isOrthonormal_one addW2

/-- Witness for C1: the three-system chain queried between its endpoints,
which are joined only indirectly. -/
theorem get_local_coordinate_system_spec_witness :
    ("s2" ∉ csmW2.nodes →
      get_local_coordinate_system csmW2 "s2" "base" =
        .error (.exception "Invalid child system"))
    ∧ ("s2" ∈ csmW2.nodes → "base" ∉ csmW2.nodes →
      get_local_coordinate_system csmW2 "s2" "base" =
        .error (.exception "Invalid parent system"))
    ∧ ("s2" ∈ csmW2.nodes → "base" ∈ csmW2.nodes →
      (∀ d, lookupEdge csmW2 "s2" "base" = some d →
        get_local_coordinate_system csmW2 "s2" "base" = .ok (d.lcs, csmW2))
      ∧ (lookupEdge csmW2 "s2" "base" = none →
        ∃ p L, IsShortestWalk csmW2 p "s2" "base" ∧
          pathCompose csmW2 p = some L ∧
          get_local_coordinate_system csmW2 "s2" "base" =
            .ok (L, cacheWith csmW2 "s2" "base" L true))) :=
  get_local_coordinate_system_spec csmW2 reachW2 "s2" "base" (by decide)

/-- C5 counterexample: on the freshly constructed manager, the self-loop
query `get_local_coordinate_system("base", "base")` raises an `IndexError`
(`nx.shortest_path` returns the single-node path `[x]` and the code reads
`path[1]`), instead of returning the identity transform as claimed. -/
theorem self_loop_counterexample :
    get_local_coordinate_system (CSM.init "base") "base" "base" =
      .error .indexError :=
  get_self_eq (CSM.init "base") "base" (by decide)

/-- C5 amended: for every node `x` of any manager, the self-loop query
computes the one-node shortest path `[x]` and then fails with an
`IndexError` while reading the first edge of that path; it never returns a
transform. -/
theorem self_loop_raises (csm : CSM) (x : String) (hx : x ∈ csm.nodes) :
    get_local_coordinate_system csm x x = .error .indexError :=
  get_self_eq csm x hx

/-- Witness for the amended C5 on a two-system manager. -/
theorem self_loop_raises_witness :
    get_local_coordinate_system csmW1 "s1" "s1" = .error .indexError :=
  self_loop_raises csmW1 "s1" (by decide)

/-- Claim C3 exactly as stated: in every state reachable by successful
`add_coordinate_system` calls and queries, every edge has a reverse edge
carrying exactly the algebraic inverse of its transform, and consequently
the two direct queries return each other's inverse. -/
def C3Statement : Prop :=
  ∀ csm, Reachable csm → ∀ a b d, lookupEdge csm a b = some d →
    (∃ d', lookupEdge csm b a = some d' ∧ d'.lcs = invertVal d.lcs) ∧
    ∃ L c1 c2, get_local_coordinate_system csm a b = .ok (L, c1) ∧
      get_local_coordinate_system csm b a = .ok (invertVal L, c2)

/-- Identity-orientation transform with origin `[1, 0, 0]`, used by the C3
counterexample. -/
def lcsT : LocalCoordinateSystem := ⟨1, ![1, 0, 0]⟩

/-- Manager after `add_coordinate_system("base", "base", lcsT)` — a call
the code accepts, since nothing rejects `name = parent_system_name`. -/
def stateC3 : CSM := cacheWith (CSM.init "base") "base" "base" lcsT false

lemma addC3 :
    add_coordinate_system (CSM.init "base") "base" "base" lcsT =
      .ok stateC3 := by
  rw [add_coordinate_system_ok (CSM.init "base") "base" "base" lcsT
    (by decide) isOrthonormal_one]
  rfl

/-- C3 counterexample: registering a system under its own name — a call
`add_coordinate_system` accepts — creates a self-edge `("base", "base")`
whose second `add_edge` overwrites the first, so the edge holds
`lcsT.invert()` while its "reverse" edge (itself) would have to hold
`lcsT`; the invariant claimed for all reachable states is violated. -/
theorem csm_inverse_invariant_counterexample : ¬ C3Statement := by
  intro h
  have hreach : Reachable stateC3 :=
    Reachable.add "base" "base" lcsT (Reachable.init "base") addC3
  have hlook : lookupEdge stateC3 "base" "base" =
      some ⟨invertVal lcsT, false⟩ := by
    rw [show stateC3 = cacheWith (CSM.init "base") "base" "base" lcsT false
      from rfl, lookupEdge_cacheWith, if_pos rfl]
  obtain ⟨⟨d', hd', hinv⟩, -⟩ :=
    h stateC3 hreach "base" "base" ⟨invertVal lcsT, false⟩ hlook
  rw [hlook] at hd'
  obtain rfl := Option.some.inj hd'
  have h0 := congrArg (fun L => L.origin 0) hinv
  simp [invertVal, lcsT, Matrix.transpose_one, Matrix.one_mulVec] at h0
  norm_num at h0

/-- C3 amended: the invariant holds on every state reachable through
well-formed calls (exactly orthonormal transforms, and no system added
under the name of its own parent): every edge `(a, b)` has the reverse
edge `(b, a)` carrying exactly the algebraic inverse of its transform, and
the two direct queries return the stored transform and its inverse without
modifying the state. -/
theorem csm_inverse_invariant (csm : CSM) (hr : ReachableWF csm)
    (a b : String) (d : EdgeData) (hd : lookupEdge csm a b = some d) :
    ∃ d', lookupEdge csm b a = some d' ∧ d'.lcs = invertVal d.lcs ∧
      get_local_coordinate_system csm a b = .ok (d.lcs, csm) ∧
      get_local_coordinate_system csm b a = .ok (invertVal d.lcs, csm) := by
  have hInv := reachableWF_invariant hr
  have hne : a ≠ b := by
    intro he
    subst he
    rw [hInv.no_self a] at hd
    exact Option.noConfusion hd
  obtain ⟨ha, hb⟩ := hInv.edge_mem a b d hd
  obtain ⟨d', hd', hinv⟩ := hInv.sym a b d hd
  refine ⟨d', hd', hinv, getLCS_ok_direct hInv hne ha hb hd, ?_⟩
  rw [getLCS_ok_direct hInv (fun he => hne he.symm) hb ha hd', hinv]

lemma lookW1 : lookupEdge csmW1 "s1" "base" = some ⟨lcsA, false⟩ := by
  rw [show csmW1 = cacheWith ⟨["base", "s1"], []⟩ "s1" "base" lcsA false
    from rfl, lookupEdge_cacheWith, if_neg (by decide), if_pos rfl]

/-- Witness for the amended C3 on the two-system manager and its defined
edge. -/
theorem csm_inverse_invariant_witness :
    ∃ d', lookupEdge csmW1 "base" "s1" = some d' ∧
      d'.lcs = invertVal (EdgeData.mk lcsA false).lcs ∧
      get_local_coordinate_system csmW1 "s1" "base" =
        .ok ((EdgeData.mk lcsA false).lcs, csmW1) ∧
      get_local_coordinate_system csmW1 "base" "s1" =
        .ok (invertVal (EdgeData.mk lcsA false).lcs, csmW1) :=
  csm_inverse_invariant csmW1 reachW1 "s1" "base" ⟨lcsA, false⟩ lookW1

/-- Classifier for `add_coordinate_system` results: did the call succeed? -/
def producesCSM : Except PyError CSM → Bool
  | .ok _ => true
  | _ => false

/-- C4 counterexample: adding `"s1"` a second time succeeds (no duplicate
check exists: `add_node` is idempotent and the edges are overwritten), and
the unknown-parent failure is the generic `Exception("Invalid parent
system")`, not a `KeyError`/`ValueError`. -/
theorem add_coordinate_system_counterexample :
    producesCSM (add_coordinate_system csmW1 "s1" "base" lcsB) = true
    ∧ add_coordinate_system csmW1 "s1" "ghost" lcsB =
        .error (.exception "Invalid parent system") := by
  constructor
  · rw [add_coordinate_system_ok csmW1 "s1" "base" lcsB (by decide)
      isOrthonormal_one]
    rfl
  · exact add_coordinate_system_err csmW1 "s1" "ghost" lcsB (by decide)

/-- C4 amended: `add_coordinate_system` fails — with the generic
`Exception("Invalid parent system")` — exactly when the parent is unknown;
an existing `name` is not rejected.  Whenever the parent exists the call
succeeds, `name` and the parent are nodes of the result, and (for
`name ≠ parent`) the forward edge stores the given transform and the
reverse edge its algebraic inverse. -/
theorem add_coordinate_system_spec (csm : CSM) (name parent : String)
    (lcs : LocalCoordinateSystem) (hO : IsOrthonormal lcs.basis) :
    (parent ∉ csm.nodes →
      add_coordinate_system csm name parent lcs =
        .error (.exception "Invalid parent system"))
    ∧ (parent ∈ csm.nodes → ∃ csm',
        add_coordinate_system csm name parent lcs = .ok csm' ∧
        name ∈ csm'.nodes ∧ parent ∈ csm'.nodes ∧
        (name ≠ parent →
          lookupEdge csm' name parent = some ⟨lcs, false⟩ ∧
          lookupEdge csm' parent name = some ⟨invertVal lcs, false⟩)) := by
  refine ⟨add_coordinate_system_err csm name parent lcs, fun hp => ?_⟩
  refine ⟨cacheWith ⟨addNode csm.nodes name, csm.edges⟩ name parent lcs false,
    add_coordinate_system_ok csm name parent lcs hp hO, ?_, ?_, fun hne => ?_⟩
  · show name ∈ addNode csm.nodes name
    unfold addNode
    split_ifs with hmem
    · exact hmem
    · exact List.mem_append_right _ (List.mem_singleton.mpr rfl)
  · show parent ∈ addNode csm.nodes name
    unfold addNode
    split_ifs with hmem
    · exact hp
    · exact List.mem_append_left _ hp
  · constructor
    · rw [lookupEdge_cacheWith,
        if_neg (fun hk => hne (congrArg Prod.fst hk)), if_pos rfl]
    · rw [lookupEdge_cacheWith, if_pos rfl]

/-- Witness for the amended C4: a fresh system under the root. -/
theorem add_coordinate_system_spec_witness :
    ∃ csm', add_coordinate_system (CSM.init "base") "n" "base" lcsB =
        .ok csm' ∧
      "n" ∈ csm'.nodes ∧ "base" ∈ csm'.nodes ∧
      ("n" ≠ "base" →
        lookupEdge csm' "n" "base" = some ⟨lcsB, false⟩ ∧
        lookupEdge csm' "base" "n" = some ⟨invertVal lcsB, false⟩) :=
  (add_coordinate_system_spec (CSM.init "base") "n" "base" lcsB
    isOrthonormal_one).2 (by decide)

/-- A serialized coordinate transformation record
(`CoordinateTransformation` in `coordinate_system_hierarchy.py`). -/
structure CoordinateTransformation where
  name : String
  reference_system : String
  transformation : LocalCoordinateSystem

/-- Modelled from the spec: `has_coordinate_system(name)` — the membership
test of the exposed query surface (§6), true iff `name` is a node of the
manager's graph.  The method called by `from_tree` is not among the
sources; only this older `CoordinateSystemManager` is. -/
def has_coordinate_system (csm : CSM) (name : String) : Bool :=
  name ∈ csm.nodes

/-- Modelled from the spec: `add_cs(name, parent_name, lcs)` (§4.3) —
rejects an existing `name` and an unknown parent, and otherwise inserts
the node with its forward/inverse edge pair.  The method called by
`from_tree` is not among the sources; under the guards of the `from_tree`
loop it behaves identically to the in-repo `add_coordinate_system`. -/
def add_cs (csm : CSM) (name parent : String)
    (lcs : LocalCoordinateSystem) : Except PyError CSM :=
  if name ∈ csm.nodes then .error .keyError
  else if parent ∈ csm.nodes then
    .ok ⟨csm.nodes ++ [name],
      addEdgeRaw (addEdgeRaw csm.edges (name, parent) ⟨lcs, false⟩)
        (parent, name) ⟨invertVal lcs, false⟩⟩
  else .error (.valueError "parent system does not exist")

/-- One full pass of the `while not all_systems_included:` loop of
`LocalCoordinateSystemASDF.from_tree`: set the flag, scan all records in
order, place each record whose name is absent and whose reference system
is present, and clear the flag (`all_systems_included = False`) for a
record whose reference system is absent. -/
def fromTreePass (records : List CoordinateTransformation) (csm : CSM) :
    CSM × Bool :=
  records.foldl
    (fun acc r =>
      if has_coordinate_system acc.1 r.name then acc
      else if has_coordinate_system acc.1 r.reference_system then
        (match add_cs acc.1 r.name r.reference_system r.transformation with
          | .ok c => c
          | .error _ => acc.1, acc.2)
      else (acc.1, false))
    (csm, true)

/-- The manager and loop flag after `n` passes of the `from_tree` while
loop over the fresh manager rooted at `root`.  The Python loop repeats
passes until the flag comes back `True`, so it terminates exactly when
some iterate carries `true`; making the pass count explicit lets
non-termination be stated. -/
def fromTreeIter (root : String)
    (records : List CoordinateTransformation) : ℕ → CSM × Bool
  | 0 => (CSM.init root, false)
  | n + 1 => fromTreePass records (fromTreeIter root records n).1

/-- The import list from the claim's failing input: one record whose
reference system never becomes available. -/
def danglingRecords : List CoordinateTransformation :=
  [⟨"a", "missing", identityLCS⟩]

/-- C8, at the failing input: every pass of the reconstruction loop leaves
the manager at just the root and returns `all_systems_included = False`,
so the `while` loop never terminates; no error is surfaced (the pass has
no failure channel at all) and the record is never placed. -/
theorem from_tree_dangling_diverges :
    ∀ n, fromTreeIter "base" danglingRecords n = (CSM.init "base", false) := by
  intro n
  induction n with
  | zero => rfl
  | succ n ih =>
    show fromTreePass danglingRecords
      (fromTreeIter "base" danglingRecords n).1 = (CSM.init "base", false)
    rw [ih]
    rfl

end Weldx
